import Mathlib

/-!
Verification development for the telegram_sticker_to_whatsapp repository.

The Python source is shallowly embedded: pure logic is translated to Lean
functions, external effects (the PIL/OpenCV codecs, the chat platform, the
file system) are abstracted as function parameters, fallible Python code
(code that can raise) returns `Option`, and the unbounded `while` loop of
`_binary_search` is given explicit fuel (so non-termination of the source
loop is observable as fuel exhaustion at every fuel value).
-/

/-! ## `video_to_webp.VideoToWebPConverter._binary_search`

The Python loop is:

  low, high = int(low), int(high)
  if low > high: return None, None
  while low <= high:
      mid = (low + high) // 2
      if mid == 0: mid = 1
      current_size = evaluator_func(mid)
      if target_range[0] <= current_size <= target_range[1]: return mid, current_size
      elif current_size < target_range[0]:
          best_value = mid; best_size = current_size; low = mid + 1
      else: high = mid - 1
  if best_value is not None and best_size <= target_range[1]: return best_value, best_size
  return None, None

Sizes are compared with `<=`/`<` only, and the converter's evaluators can
return `float('inf')`, so the size type is kept abstract as a linear order
(`WithTop Int` at the call sites, plain `Int` for the generic claims).
The evaluator returns `Option σ`: `none` models the evaluator raising.
Python's `//` on ints is floor division, i.e. `Int.fdiv`.
The second component of the result instruments the list of evaluated
midpoints, in evaluation order; the first component is the source's
return value.  `SearchOut.spin` is returned when the fuel runs out with
the loop guard still true, i.e. the source loop has not finished.
-/

inductive SearchOut (σ : Type) where
  | found (value : Int) (size : σ)
  | nofind
  | err
  | spin
  deriving DecidableEq

/-- Model of the code after the `while` loop: return `best_value, best_size`
if `best_value is not None and best_size <= target_range[1]`, else `None, None`. -/
def bfinish {σ : Type} [LinearOrder σ] (thigh : σ) : Option (Int × σ) → SearchOut σ
  | some (bv, bs) => if bs ≤ thigh then .found bv bs else .nofind
  | none => .nofind

/-- The `while low <= high` loop of `_binary_search`, with fuel. -/
def bsearchAux {σ : Type} [LinearOrder σ] (tlow thigh : σ) (f : Int → Option σ) :
    Nat → Int → Int → Option (Int × σ) → List Int → SearchOut σ × List Int
  | 0, low, high, best, tr => (if low ≤ high then .spin else bfinish thigh best, tr)
  | fuel + 1, low, high, best, tr =>
    if low ≤ high then
      let mid0 := (low + high).fdiv 2
      let mid := if mid0 = 0 then 1 else mid0
      match f mid with
      | none => (.err, tr ++ [mid])
      | some s =>
        if tlow ≤ s ∧ s ≤ thigh then (.found mid s, tr ++ [mid])
        else if s < tlow then
          bsearchAux tlow thigh f fuel (mid + 1) high (some (mid, s)) (tr ++ [mid])
        else
          bsearchAux tlow thigh f fuel low (mid - 1) best (tr ++ [mid])
    else (bfinish thigh best, tr)

/-- `VideoToWebPConverter._binary_search(target_range, search_space, evaluator_func)`. -/
def binary_search {σ : Type} [LinearOrder σ] (target_range : σ × σ)
    (search_space : Int × Int) (evaluator_func : Int → Option σ) (fuel : Nat) :
    SearchOut σ × List Int :=
  let low := search_space.1
  let high := search_space.2
  if low > high then (.nofind, [])
  else bsearchAux target_range.1 target_range.2 evaluator_func fuel low high none []

/-! ## `select_frames` (closure inside `VideoToWebPConverter.convert`)

  def select_frames(source_frames, count):
      if count <= 0: return []
      if count >= len(source_frames): return source_frames
      indices = [int(i * (len(source_frames) - 1) / (count - 1)) for i in range(count)]
      return [source_frames[i] for i in indices]

The index expression divides by `count - 1`: for `count == 1` (with
`1 < len(source_frames)` so that the branch is reached) Python raises
`ZeroDivisionError`; this is modelled by `sel_index` returning `none`.
For the in-range magnitudes that occur here the float division followed by
`int(...)` coincides with exact floor division, which is how it is modelled. -/

def sel_index (n count i : Nat) : Option Nat :=
  if count - 1 = 0 then none
  else some (i * (n - 1) / (count - 1))

def select_frames {α : Type} (source_frames : List α) (count : Int) : Option (List α) :=
  if count ≤ 0 then some []
  else if (source_frames.length : Int) ≤ count then some source_frames
  else do
    let idxs ← (List.range count.toNat).mapM (sel_index source_frames.length count.toNat)
    idxs.mapM (fun i => source_frames.get? i)

/-! ## `VideoToWebPConverter._save_webp_to_buffer` and `convert`

`_save_webp_to_buffer(frames, quality, fps)` returns `float('inf')` on an
empty frame list and otherwise the byte size of the PIL WebP encode.  The
encode itself is an external codec call, abstracted as
`enc : List α → Int → ℚ → Int` (frames, quality, fps ↦ byte size); the
frame duration written to the container is `int(1000 / fps)`, a function of
`fps`, hence absorbed into `enc`. -/

def save_webp_to_buffer {α : Type} (enc : List α → Int → ℚ → Int)
    (frames : List α) (quality : Int) (fps : ℚ) : WithTop Int :=
  if frames.isEmpty then ⊤ else ((enc frames quality fps : Int) : WithTop Int)

inductive ConvOut (α : Type) where
  | ok (frames : List α) (quality : Int)
  | err
  | spin
  deriving DecidableEq

/-- `VideoToWebPConverter.convert`, from after frame extraction to the final
save.  `all_frames` is the extracted frame list, `quality` is `self.quality`
(80 at the repository's call sites), `original_duration` the decoded
duration.  The result carries the `(final_frames, final_quality)` pair that
the final save encodes; `.err` models an uncaught exception
(`ZeroDivisionError` from `select_frames`, or the final-save `IOError`),
`.spin` models a `_binary_search` call that does not terminate within
`fuel` iterations.  Stage structure, ranges, constants and the Python
truthiness tests (`if best_f:`, which is false for `None` and for `0`)
follow the source. -/
def convert {α : Type} (enc : List α → Int → ℚ → Int) (all_frames : List α)
    (quality : Int) (original_duration : ℚ) (fuel : Nat) : ConvOut α :=
  if all_frames.isEmpty then .err
  else
    let original_total_frames : Int := all_frames.length
    let TL : WithTop Int := ((400 * 1024 : Int) : WithTop Int)
    let TH : WithTop Int := ((450 * 1024 : Int) : WithTop Int)
    let eval_frames := fun (q : Int) (num_frames : Int) =>
      match select_frames all_frames num_frames with
      | none => (none : Option (WithTop Int))
      | some frames_to_test =>
        if frames_to_test.isEmpty then some ⊤
        else some (save_webp_to_buffer enc frames_to_test q
          ((frames_to_test.length : ℚ) / original_duration))
    let eval_quality := fun (final_frames : List α) (q : Int) =>
      if final_frames.isEmpty then (some ⊤ : Option (WithTop Int))
      else some (save_webp_to_buffer enc final_frames q
        ((final_frames.length : ℚ) / original_duration))
    let finish := fun (final_frames : List α) (final_quality : Int) =>
      if final_frames.isEmpty then ConvOut.err else ConvOut.ok final_frames final_quality
    let initial_frame_count : Int := min original_total_frames 60
    match select_frames all_frames initial_frame_count with
    | none => .err
    | some frames0 =>
      let current_size := save_webp_to_buffer enc frames0 quality
        ((frames0.length : ℚ) / original_duration)
      if current_size ≤ TH then finish frames0 quality
      else
        let frame_range_1 : Int × Int :=
          if original_total_frames > 60 then (30, 60)
          else (original_total_frames.fdiv 2, original_total_frames)
        let frame_range_2 : Int × Int :=
          if original_total_frames > 60 then (1, 30)
          else (1, original_total_frames.fdiv 2)
        let fallback_frame_count : Int :=
          if original_total_frames > 60 then 30 else original_total_frames.fdiv 2
        let stageE : ConvOut α :=
          match select_frames all_frames 1 with
          | none => .err
          | some ff =>
            match (binary_search (TL, TH) (1, 40) (eval_quality ff) fuel).1 with
            | .found bq _ => if bq = 0 then finish ff 1 else finish ff bq
            | .nofind => finish ff 1
            | .err => .err
            | .spin => .spin
        let stageD : ConvOut α :=
          match (binary_search (TL, TH) frame_range_2 (eval_frames 40) fuel).1 with
          | .found bf _ =>
            if bf = 0 then stageE
            else
              match select_frames all_frames bf with
              | none => .err
              | some ff => finish ff 40
          | .nofind => stageE
          | .err => .err
          | .spin => .spin
        let stageC : ConvOut α :=
          match select_frames all_frames fallback_frame_count with
          | none => .err
          | some ff =>
            match (binary_search (TL, TH) (40, 80) (eval_quality ff) fuel).1 with
            | .found bq _ => if bq = 0 then stageD else finish ff bq
            | .nofind => stageD
            | .err => .err
            | .spin => .spin
        match (binary_search (TL, TH) frame_range_1 (eval_frames quality) fuel).1 with
        | .found bf _ =>
          if bf = 0 then stageC
          else
            match select_frames all_frames bf with
            | none => .err
            | some ff => finish ff quality
        | .nofind => stageC
        | .err => .err
        | .spin => .spin

/-! ## `utils.optimize_image_size`

  for quality in range(95, 10, -5):
      output = io.BytesIO()
      img.save(output, format='WEBP', quality=quality, optimize=True)
      if output.tell() <= max_size: return output.getvalue()
  output = io.BytesIO()
  img.save(output, format='WEBP', quality=10, optimize=True)
  return output.getvalue()

The decode, RGBA conversion, resize and encode are external PIL calls,
abstracted as `enc : Int → Int` (quality ↦ byte size of the encode of the
fixed resized image).  The result is modelled as the `(quality, size)` pair
of the returned encoding. -/

/-- Python `range(95, 10, -5)` = 95, 90, ..., 15. -/
def quality_steps : List Int := (List.range 17).map (fun i => 95 - 5 * (i : Int))

def optimize_image_size (enc : Int → Int) (max_size : Int) : Int × Int :=
  match quality_steps.find? (fun quality => enc quality ≤ max_size) with
  | some quality => (quality, enc quality)
  | none => (10, enc 10)

/-! ## `utils.sanitize_filename`

  filename = re.sub(r'[<>:"/\\|?*]', '_', filename)
  filename = filename.strip(' .')
  if len(filename) > 50: filename = filename[:50]
  return filename or "sticker_pack"

Strings are modelled as `List Char`.  `str.strip(' .')` removes the
characters space and period (only those two) from both ends. -/

def illegal_chars : List Char := ['<', '>', ':', '"', '/', '\\', '|', '?', '*']

def strip_set : List Char := [' ', '.']

/-- Python `s.strip(chars)`. -/
def pystrip (cs : List Char) (s : List Char) : List Char :=
  ((s.dropWhile (· ∈ cs)).reverse.dropWhile (· ∈ cs)).reverse

def sanitize_filename (s : List Char) : List Char :=
  let s1 := s.map (fun c => if c ∈ illegal_chars then '_' else c)
  let s2 := pystrip strip_set s1
  let s3 := if s2.length > 50 then s2.take 50 else s2
  if s3 = [] then "sticker_pack".toList else s3

/-! ## `sticker_converter.StickerConverter.create_wastickers_pack` (chunking)

  total_stickers = len(stickers)
  num_packs = (total_stickers + MAX_STICKERS_PER_PACK - 1) // MAX_STICKERS_PER_PACK
  for pack_idx in range(num_packs):
      start_idx = pack_idx * MAX_STICKERS_PER_PACK
      end_idx = min(start_idx + MAX_STICKERS_PER_PACK, total_stickers)
      pack_stickers = stickers[start_idx:end_idx]
      ...
      if num_packs > 1: pack_title += f" {pack_idx + 1}"

`config.MAX_STICKERS_PER_PACK = 30`; the cap is kept as a parameter `M`
(instantiated with 30) so the claim's generality over the configured cap
can be stated. -/

def MAX_STICKERS_PER_PACK : Nat := 30

def num_packs (total_stickers M : Nat) : Nat := (total_stickers + M - 1) / M

def create_chunks {σ : Type} (stickers : List σ) (M : Nat) : List (List σ) :=
  (List.range (num_packs stickers.length M)).map fun pack_idx =>
    (stickers.drop (pack_idx * M)).take (min (pack_idx * M + M) stickers.length - pack_idx * M)

def chunk_titles (pack_title : String) (total_stickers M : Nat) : List String :=
  (List.range (num_packs total_stickers M)).map fun pack_idx =>
    if num_packs total_stickers M > 1 then pack_title ++ " " ++ toString (pack_idx + 1)
    else pack_title

/-! ## `queue_manager.QueueManager`

The Python state is `queue : List[QueueItem]`, `processing :
Optional[QueueItem]`, `user_queues : Dict[int, QueueItem]`.  The dict is
modelled as an insertion-ordered association list with Python-dict
operations `dget` / `dinsert` / `derase`.  `QueueItem` is a mutable object
shared between the list, the dict and the active slot; in this value-level
model every in-place status mutation is mirrored at each place that holds
the same object (in `get_next_item`, the popped item is the dict's item for
that user, so the dict entry is updated alongside the active slot;
`complete_processing` drops the object from both the slot and the dict, so
its final status mutation is not observable in the state). -/

inductive Status where
  | waiting
  | processing
  | completed
  | error
  deriving DecidableEq

structure QueueItem (π : Type) where
  user_id : Int
  username : String
  chat_id : Int
  message_id : Int
  pack_input : π
  timestamp : Nat
  status : Status
  deriving DecidableEq

structure QueueManager (π : Type) where
  queue : List (QueueItem π)
  processing : Option (QueueItem π)
  user_queues : List (Int × QueueItem π)
  deriving DecidableEq

def initialQM (π : Type) : QueueManager π := ⟨[], none, []⟩

/-- Python `d.get(k)` / `d[k]`. -/
def dget {β : Type} : List (Int × β) → Int → Option β
  | [], _ => none
  | (k, v) :: t, k' => if k = k' then some v else dget t k'

/-- Python `d[k] = v` (update in place if present, else append). -/
def dinsert {β : Type} : List (Int × β) → Int → β → List (Int × β)
  | [], k, v => [(k, v)]
  | (k', v') :: t, k, v => if k' = k then (k, v) :: t else (k', v') :: dinsert t k v

/-- Python `del d[k]` (for keys occurring at most once). -/
def derase {β : Type} : List (Int × β) → Int → List (Int × β)
  | [], _ => []
  | (k', v') :: t, k => if k' = k then t else (k', v') :: derase t k

/-- `QueueManager._get_position`. -/
def _get_position {π : Type} [DecidableEq π] (qm : QueueManager π) (user_id : Int) : Int :=
  match dget qm.user_queues user_id with
  | none => 0
  | some item =>
    if item.status = Status.processing then 1
    else
      match qm.queue.findIdx? (fun x => x = item) with
      | some idx => (idx : Int) + 1 + (if qm.processing.isSome then 1 else 0)
      | none => 0

/-- `QueueManager.get_queue_position`. -/
def get_queue_position {π : Type} [DecidableEq π] (qm : QueueManager π)
    (user_id : Int) : Option Int :=
  if (dget qm.user_queues user_id).isSome then some (_get_position qm user_id) else none

/-- `QueueManager.add_to_queue`; `now` stands for `datetime.now()`.
Returns the Python return value (`len(self.queue)` after the append, or the
existing position) together with the new state. -/
def add_to_queue {π : Type} [DecidableEq π] (qm : QueueManager π) (user_id : Int)
    (username : String) (chat_id message_id : Int) (pack_input : π) (now : Nat) :
    Int × QueueManager π :=
  let fresh : QueueItem π :=
    ⟨user_id, username, chat_id, message_id, pack_input, now, Status.waiting⟩
  let push : Int × QueueManager π :=
    ((qm.queue.length + 1 : Int),
      { qm with
        queue := qm.queue ++ [fresh]
        user_queues := dinsert qm.user_queues user_id fresh })
  match dget qm.user_queues user_id with
  | some existing_item =>
    if existing_item.status = Status.waiting ∨ existing_item.status = Status.processing then
      (_get_position qm user_id, qm)
    else push
  | none => push

/-- `QueueManager.get_next_item`. -/
def get_next_item {π : Type} (qm : QueueManager π) :
    Option (QueueItem π) × QueueManager π :=
  if qm.processing.isSome then (none, qm)
  else
    match qm.queue with
    | [] => (none, qm)
    | item :: rest =>
      let item2 := { item with status := Status.processing }
      (some item2,
        { queue := rest
          processing := some item2
          user_queues := dinsert qm.user_queues item.user_id item2 })

/-- `QueueManager.complete_processing`.  The `success` flag only selects the
terminal status written to the object being dropped from the state, so it
does not show up on the right-hand side. -/
def complete_processing {π : Type} (qm : QueueManager π) (user_id : Int)
    (success : Bool) : QueueManager π :=
  match qm.processing with
  | some item =>
    if item.user_id = user_id then
      { queue := qm.queue, processing := none,
        user_queues := derase qm.user_queues user_id }
    else qm
  | none => qm

/-- States reachable from the fresh `QueueManager()` by the public mutating
operations. -/
inductive Reachable {π : Type} [DecidableEq π] : QueueManager π → Prop where
  | init : Reachable (initialQM π)
  | enqueue {qm : QueueManager π} (user_id : Int) (username : String)
      (chat_id message_id : Int) (pack_input : π) (now : Nat) :
      Reachable qm →
      Reachable (add_to_queue qm user_id username chat_id message_id pack_input now).2
  | dequeue {qm : QueueManager π} : Reachable qm → Reachable (get_next_item qm).2
  | complete {qm : QueueManager π} (user_id : Int) (success : Bool) :
      Reachable qm → Reachable (complete_processing qm user_id success)

/-! ## `bot_handlers.BotHandlers.process_queue` (one loop iteration)

The body for one dequeued item.  Four of its statements read
`item.pack_name`: the start-notification f-string, the argument of
`get_sticker_set`, and the two failure f-strings.  `QueueItem`
(queue_manager.py) defines no `pack_name` field — the field is
`pack_input` — so each of those reads raises `AttributeError`; the lookup
is modelled by `QueueItem.attr_pack_name` below, and each read site is
gated on it.  Every external `await` is abstracted as an outcome
parameter: `sendStart`, `sendDetails`, `sendSuccess`, `sendNotFound`,
`sendFailMsg`, `sendInstr` are `true` when the corresponding
`send_message` returns and `false` when it raises; `resolve` is the
outcome of `get_sticker_set` (`none` = raised, `some none` = returned a
falsy value, `some (some s)` = a sticker set); `files` is what
`create_wastickers_pack` returns (it catches its own exceptions and
returns a list); `exists2 f` is `os.path.exists(file_path)`; `deliver f`
is `true` when `send_document` returns and `false` when it raises.  The
result is the list of `complete_processing` success flags issued for the
item, in order (any exception inside the `try` lands in the `except`
handler, which sends a best-effort error message and calls
`complete_processing(user_id, False)`). -/

/-- Python attribute lookup `item.pack_name` on a `QueueItem`: the
dataclass fields are `user_id`, `username`, `chat_id`, `message_id`,
`pack_input`, `timestamp` and `status` — there is no `pack_name` — so the
lookup raises `AttributeError`, modelled as `none`. -/
def QueueItem.attr_pack_name {π : Type} (item : QueueItem π) : Option String := none

def deliver_loop {φ : Type} (exists2 deliver : φ → Bool) : List φ → Bool
  | [] => true
  | f :: fs => if exists2 f then (if deliver f then deliver_loop exists2 deliver fs else false)
               else deliver_loop exists2 deliver fs

def process_item {π ς φ : Type} (item : QueueItem π) (sendStart : Bool)
    (resolve : Option (Option ς)) (sendDetails : Bool) (files : List φ)
    (exists2 deliver : φ → Bool)
    (sendSuccess sendNotFound sendFailMsg sendInstr : Bool) : List Bool :=
  match item.attr_pack_name with
  | none => [false]
  | some _ =>
    if sendStart = false then [false]
    else
      match item.attr_pack_name with
      | none => [false]
      | some _ =>
        match resolve with
        | none => [false]
        | some none =>
          match item.attr_pack_name with
          | none => [false]
          | some _ => if sendNotFound then [false] else [false]
        | some (some _) =>
          if sendDetails = false then [false]
          else if files.isEmpty = false then
            if sendSuccess = false then [false]
            else if deliver_loop exists2 deliver files then
              (if sendInstr then [true] else [false])
            else [false]
          else
            match item.attr_pack_name with
            | none => [false]
            | some _ => if sendFailMsg then [false] else [false]

/-! ## Claim C1 — animated policy never fails / always terminates: refuted

The gauntlet is NOT total.  A video decoding to two frames whose two-frame
encode at the default quality exceeds the 450 KB cap enters Stage B with
`frame_range_1 = (1, 2)`; the first midpoint is `1`, and
`select_frames(all_frames, 1)` raises `ZeroDivisionError` (the index
expression divides by `count - 1 = 0`), so `convert` dies with an uncaught
exception instead of returning an encoding.  (Independently, a one-frame
video that fails Stage A makes `_binary_search` loop forever on the range
`(0, 1)`: the `mid == 0 → mid = 1` clamp re-evaluates midpoint 1 without
shrinking the range; see C2.)  The constant evaluator stands for a codec
for which every candidate encode is 500000 bytes. -/

/-- One loop iteration of `_binary_search` in which the evaluator raises:
the whole search raises, for any remaining fuel. -/
theorem bsearchAux_err {σ : Type} [LinearOrder σ] (tlow thigh : σ) (f : Int → Option σ)
    (fuel : Nat) (low high : Int) (best : Option (Int × σ)) (tr : List Int)
    (h : low ≤ high)
    (hf : f (if (low + high).fdiv 2 = 0 then 1 else (low + high).fdiv 2) = none) :
    bsearchAux tlow thigh f (fuel + 1) low high best tr =
      (.err, tr ++ [if (low + high).fdiv 2 = 0 then 1 else (low + high).fdiv 2]) := by
  rw [bsearchAux]
  simp only [if_pos h, hf]

/-- C1: the animated size-fitting policy, run on a two-frame input whose
every encode is 500000 bytes (above the 460800-byte window top), raises an
uncaught `ZeroDivisionError` instead of returning an encoding — for every
positive fuel bound, i.e. regardless of how long the searches are allowed
to run (the error happens at Stage B's first evaluation, of midpoint 1). -/
theorem C1_convert_zero_division_error :
    ∀ fuel : Nat, convert (fun _ _ _ => 500000) [0, 1] 80 1 (fuel + 1) = ConvOut.err := by
  intro fuel
  simp only [convert, binary_search]
  norm_num
  rw [bsearchAux_err _ _ _ fuel 1 2 none [] (by norm_num) (by decide)]
  have hsf : select_frames ([0, 1] : List Nat) 2 = some [0, 1] := by decide
  rw [hsf]
  have hsz :
      ¬ (save_webp_to_buffer (fun _ _ _ => (500000 : Int)) [0, 1] 80
          ((([0, 1] : List ℕ).length : ℚ)) ≤ ((460800 : Int) : WithTop Int)) := by
    decide
  norm_num [save_webp_to_buffer] at hsz ⊢
  exact fun h => absurd h (not_le.mpr hsz)

/-! ## Claim C3 — `select_frames` at `count = 1`: refuted

For a source sequence of `N ≥ 2` frames, `select_frames(source, 1)` takes
the index-list branch and evaluates `int(0 * (N - 1) / (1 - 1))`, a
division by zero.  The claim's "collapsing to a single frame (count = 1)
is defined and returns the sequence's first frame without error" is
exactly what Stage E (and any Stage B/D evaluation of midpoint 1) relies
on, and it raises instead. -/

/-- C3: on the two-frame sequence `[10, 20]`, `select_frames` with
`count = 1` raises (`none` models the `ZeroDivisionError`) rather than
returning `[10]`; the remaining branches behave as claimed (e.g. the
whole sequence is returned when `count = N`, and `count = 2` of three
frames keeps the first and last frame). -/
theorem C3_select_frames_one_raises :
    select_frames ([10, 20] : List Nat) 1 = none ∧
    select_frames ([10, 20] : List Nat) 2 = some [10, 20] ∧
    select_frames ([10, 20, 30] : List Nat) 2 = some [10, 30] := by
  decide

/-! ## Claim C6 — static policy (monotonic quality descent): confirmed -/

/-- In a strictly decreasing list, `find?` rejects every element strictly
larger than (i.e. strictly earlier than) the found one. -/
theorem find?_pairwise_gt {p : Int → Bool} {l : List Int}
    (hl : l.Pairwise (fun a b => a > b)) {a : Int} (h : l.find? p = some a) :
    ∀ b ∈ l, a < b → p b = false := by
  induction l with
  | nil => simp at h
  | cons x t ih =>
    rw [List.pairwise_cons] at hl
    intro b hb hab
    rcases List.mem_cons.mp hb with rfl | hbt
    · cases hpx : p b with
      | false => rfl
      | true =>
        rw [List.find?_cons_of_pos _ hpx] at h
        cases h
        omega
    · cases hpx : p x with
      | false =>
        rw [List.find?_cons_of_neg _ (by simp [hpx])] at h
        exact ih hl.2 h b hbt hab
      | true =>
        rw [List.find?_cons_of_pos _ hpx] at h
        cases h
        exact absurd (hl.1 b hbt) (by omega)

/-- C6: the static size-fitting policy tries qualities in strictly
decreasing order; whatever it returns is the encoding at the returned
quality; if some tried level fits under the ceiling it returns the first
(largest) such level, with every strictly higher level oversize; if every
tried level is oversize it still returns the quality-10 encoding rather
than failing; and an input already under the ceiling at the top quality is
returned from the very first level, 95. -/
theorem C6_optimize_image_size (enc : Int → Int) (max_size : Int) :
    quality_steps.Pairwise (fun a b => a > b) ∧
    (∀ q s, optimize_image_size enc max_size = (q, s) → s = enc q) ∧
    ((∃ q ∈ quality_steps, enc q ≤ max_size) →
      ∃ q ∈ quality_steps, optimize_image_size enc max_size = (q, enc q) ∧
        enc q ≤ max_size ∧ ∀ r ∈ quality_steps, q < r → max_size < enc r) ∧
    ((∀ q ∈ quality_steps, max_size < enc q) →
      optimize_image_size enc max_size = (10, enc 10)) ∧
    (enc 95 ≤ max_size → optimize_image_size enc max_size = (95, enc 95)) := by
  have hsteps :
      quality_steps = [95, 90, 85, 80, 75, 70, 65, 60, 55, 50, 45, 40, 35, 30, 25, 20, 15] := by
    decide
  refine ⟨by decide, ?_, ?_, ?_, ?_⟩
  · intro q s h
    unfold optimize_image_size at h
    cases hf : quality_steps.find? (fun quality => enc quality ≤ max_size) with
    | none => rw [hf] at h; cases h; rfl
    | some q2 => rw [hf] at h; cases h; rfl
  · rintro ⟨q0, hq0, hle⟩
    cases hf : quality_steps.find? (fun quality => enc quality ≤ max_size) with
    | none =>
      have := List.find?_eq_none.mp hf q0 hq0
      simp only [decide_eq_true_eq] at this
      exact absurd hle this
    | some q2 =>
      refine ⟨q2, List.mem_of_find?_eq_some hf, ?_, ?_, ?_⟩
      · unfold optimize_image_size; rw [hf]
      · have := List.find?_some hf
        simpa using this
      · intro r hr hqr
        have := find?_pairwise_gt (by decide) hf r hr hqr
        simp only [decide_eq_false_iff_not, not_le] at this
        exact this
  · intro hall
    unfold optimize_image_size
    rw [List.find?_eq_none.mpr (by intro x hx; simpa using not_le.mpr (hall x hx))]
  · intro h95
    unfold optimize_image_size
    rw [hsteps]
    rw [List.find?_cons_of_pos _ (by simpa using h95)]

/-- C6 witness: a concrete instantiation — an encoder whose quality-95
encode is 50 bytes against a 100-byte ceiling is returned at quality 95. -/
theorem C6_optimize_image_size_witness :
    optimize_image_size (fun _ => 50) 100 = (95, 50) :=
  (C6_optimize_image_size (fun _ => 50) 100).2.2.2.2 (by decide)

/-! ## Claim C2 — `_binary_search` contract

As stated the claim is refuted: it quantifies over every inclusive range
`[low, high]` with `low ≤ high`, but for `low = 0` the `mid == 0 → mid = 1`
clamp evaluates midpoint `1` and, when the candidate is oversize, sets
`high = mid - 1 = 0` without shrinking the `[0, 0]` sub-range, so midpoint
`1` is re-evaluated forever (the loop never terminates).  This very range
arises in `convert` for a one-frame video (`frame_range_1 = (0, 1)`).
Restricted to `1 ≤ low` the clamp is the identity and the claimed contract
holds. -/

/-- The running trace accumulator only prefixes the trace: the result and
the freshly evaluated midpoints do not depend on it. -/
theorem bsearchAux_trace_append {σ : Type} [LinearOrder σ] (tlow thigh : σ)
    (f : Int → Option σ) :
    ∀ (fuel : Nat) (low high : Int) (best : Option (Int × σ)) (tr : List Int),
      bsearchAux tlow thigh f fuel low high best tr =
        ((bsearchAux tlow thigh f fuel low high best []).1,
          tr ++ (bsearchAux tlow thigh f fuel low high best []).2) := by
  intro fuel
  induction fuel with
  | zero => intro low high best tr; simp [bsearchAux]
  | succ n ih =>
    intro low high best tr
    by_cases h : low ≤ high
    · simp only [bsearchAux, if_pos h]
      cases hf : f (if (low + high).fdiv 2 = 0 then 1 else (low + high).fdiv 2) with
      | none => simp
      | some s =>
        by_cases hw : tlow ≤ s ∧ s ≤ thigh
        · simp [hw]
        · simp only [if_neg hw]
          by_cases hlt : s < tlow
          · simp only [if_pos hlt]
            rw [ih _ high _ (tr ++ [_]), ih _ high _ ([] ++ [_])]
            simp
          · simp only [if_neg hlt]
            rw [ih low _ best (tr ++ [_]), ih low _ best ([] ++ [_])]
            simp
    · simp [bsearchAux, h]

/-- The last element of a list is a member of it. -/
theorem mem_of_getLast? {α : Type} {l : List α} {a : α} (h : l.getLast? = some a) :
    a ∈ l := by
  induction l with
  | nil => simp at h
  | cons b t ih =>
    cases t with
    | nil =>
      simp at h
      subst h
      exact List.mem_singleton.mpr rfl
    | cons c u =>
      rw [List.getLast?_cons_cons] at h
      exact List.mem_cons_of_mem _ (ih h)

/-- The below-window candidate the search remembers last: the last
evaluated midpoint whose size fell strictly below the window.  This is
exactly the source's `best_value` at loop exit. -/
def last_below (g : Int → Int) (tlow : Int) (tr : List Int) : Option Int :=
  (tr.filter (fun m => g m < tlow)).getLast?

/-- The claimed contract of one `_binary_search` run (for a total
evaluator `g`): the loop finishes without error; every evaluated midpoint
lies in the range and none is evaluated twice; after a below-window
candidate only larger midpoints are evaluated and after an above-window
candidate only smaller ones; a returned `(v, s)` is a genuine evaluation
(`s = g v`, `v` evaluated) with `s` not above the window top, and if `s`
is below the window then `v` is precisely the remembered best — the last
below-window midpoint evaluated; `nofind` means every evaluated candidate
was above the window top (no remembered best existed); and any evaluated
in-window candidate short-circuits: it is the last midpoint evaluated and
it is the returned one. -/
def BS_P (g : Int → Int) (tlow thigh low high : Int)
    (out : SearchOut Int × List Int) : Prop :=
  out.1 ≠ SearchOut.spin ∧ out.1 ≠ SearchOut.err ∧
  (∀ m ∈ out.2, low ≤ m ∧ m ≤ high) ∧
  out.2.Pairwise (fun a b => a ≠ b ∧ (g a < tlow → a < b) ∧ (thigh < g a → b < a)) ∧
  (∀ v s, out.1 = SearchOut.found v s → s = g v ∧ s ≤ thigh ∧ v ∈ out.2 ∧
    (s < tlow → last_below g tlow out.2 = some v)) ∧
  (out.1 = SearchOut.nofind → ∀ m ∈ out.2, thigh < g m) ∧
  (∀ m ∈ out.2, tlow ≤ g m → g m ≤ thigh →
    out.1 = SearchOut.found m (g m) ∧ out.2.getLast? = some m)

/-- `BS_P` relativized to a running `best_value` accumulator: on an
exhaustion return, the returned pair is either the last below-window
midpoint of this call's own trace or, if this call evaluated no
below-window midpoint, the `best` passed in. -/
def BS_Paux (g : Int → Int) (tlow thigh low high : Int) (best : Option (Int × Int))
    (out : SearchOut Int × List Int) : Prop :=
  out.1 ≠ SearchOut.spin ∧ out.1 ≠ SearchOut.err ∧
  (∀ m ∈ out.2, low ≤ m ∧ m ≤ high) ∧
  out.2.Pairwise (fun a b => a ≠ b ∧ (g a < tlow → a < b) ∧ (thigh < g a → b < a)) ∧
  (∀ v s, out.1 = SearchOut.found v s → s = g v ∧ s ≤ thigh ∧
    (tlow ≤ s → v ∈ out.2) ∧
    (s < tlow → (last_below g tlow out.2 = some v ∨
      (out.2.filter (fun m => g m < tlow) = [] ∧ best = some (v, s))))) ∧
  (out.1 = SearchOut.nofind → best = none ∧ ∀ m ∈ out.2, thigh < g m) ∧
  (∀ m ∈ out.2, tlow ≤ g m → g m ≤ thigh →
    out.1 = SearchOut.found m (g m) ∧ out.2.getLast? = some m)

/-- `BS_Paux` holds for the post-loop finishing step. -/
theorem bfinish_spec (g : Int → Int) (tlow thigh low high : Int) (h3 : tlow ≤ thigh)
    (best : Option (Int × Int))
    (hbest : ∀ bv bs, best = some (bv, bs) → bs = g bv ∧ bs < tlow) :
    BS_Paux g tlow thigh low high best (bfinish thigh best, []) := by
  cases best with
  | none =>
    refine ⟨by simp [bfinish], by simp [bfinish], by simp, by simp, ?_, ?_, by simp⟩
    · intro v s hv
      simp [bfinish] at hv
    · intro _
      exact ⟨rfl, by simp⟩
  | some p =>
    obtain ⟨bv, bs⟩ := p
    obtain ⟨hbg, hbl⟩ := hbest bv bs rfl
    have hble : bs ≤ thigh := le_trans (le_of_lt hbl) h3
    refine ⟨?_, ?_, by simp, by simp, ?_, ?_, by simp⟩
    · simp [bfinish, if_pos hble]
    · simp [bfinish, if_pos hble]
    · intro v s hv
      simp only [bfinish, if_pos hble, SearchOut.found.injEq] at hv
      obtain ⟨rfl, rfl⟩ := hv
      refine ⟨hbg, hble, ?_, ?_⟩
      · intro htl
        exact absurd htl (not_le.mpr hbl)
      · intro _
        right
        exact ⟨rfl, rfl⟩
    · intro hnf
      simp only [bfinish, if_pos hble] at hnf
      exact SearchOut.noConfusion hnf

theorem bsearchAux_spec (g : Int → Int) (tlow thigh : Int) (h3 : tlow ≤ thigh) :
    ∀ (fuel : Nat) (low high : Int) (best : Option (Int × Int)),
      1 ≤ low → (high + 1 - low).toNat ≤ fuel →
      (∀ bv bs, best = some (bv, bs) → bs = g bv ∧ bs < tlow) →
      BS_Paux g tlow thigh low high best
        (bsearchAux tlow thigh (fun v => some (g v)) fuel low high best []) := by
  intro fuel
  induction fuel with
  | zero =>
    intro low high best h1 hfuel hbest
    simp only [bsearchAux, if_neg (by omega : ¬ low ≤ high)]
    exact bfinish_spec g tlow thigh low high h3 best hbest
  | succ n ih =>
    intro low high best h1 hfuel hbest
    by_cases h : low ≤ high
    · have hmid0 : (low + high).fdiv 2 = (low + high) / 2 :=
        Int.fdiv_eq_ediv _ (by norm_num)
      have hmlo : low ≤ (low + high).fdiv 2 := by rw [hmid0]; omega
      have hmhi : (low + high).fdiv 2 ≤ high := by rw [hmid0]; omega
      have hmne : ¬ ((low + high).fdiv 2 = 0) := by omega
      simp only [bsearchAux, if_pos h, if_neg hmne, List.nil_append]
      set mid := (low + high).fdiv 2 with hmid
      by_cases hw : tlow ≤ g mid ∧ g mid ≤ thigh
      · simp only [if_pos hw]
        refine ⟨by simp, by simp, ?_, ?_, ?_, by simp, ?_⟩
        · intro m hm
          simp at hm
          omega
        · simp
        · intro v s hv
          simp at hv
          obtain ⟨rfl, rfl⟩ := hv
          refine ⟨rfl, hw.2, fun _ => List.mem_singleton.mpr rfl, ?_⟩
          intro hlt2
          exact absurd hw.1 (not_le.mpr hlt2)
        · intro m hm htl hth
          simp only [List.mem_singleton] at hm
          subst hm
          exact ⟨rfl, rfl⟩
      · simp only [if_neg hw]
        by_cases hlt : g mid < tlow
        · simp only [if_pos hlt]
          rw [bsearchAux_trace_append _ _ _ n (mid + 1) high (some (mid, g mid)) [mid]]
          simp only [List.singleton_append]
          have hrec := ih (mid + 1) high (some (mid, g mid)) (by omega) (by omega)
            (by intro bv bs hb; cases hb; exact ⟨rfl, hlt⟩)
          obtain ⟨r1, r2, r3, r4, r5, r6, r7⟩ := hrec
          refine ⟨r1, r2, ?_, ?_, ?_, ?_, ?_⟩
          · intro m hm
            rcases List.mem_cons.mp hm with rfl | hm
            · omega
            · have := r3 m hm
              omega
          · rw [List.pairwise_cons]
            refine ⟨?_, r4⟩
            intro b hb
            have := r3 b hb
            refine ⟨by omega, fun _ => by omega, fun hc => absurd hc (by omega)⟩
          · intro v s hv
            obtain ⟨hs1, hs2, hs3, hs4⟩ := r5 v s hv
            refine ⟨hs1, hs2, ?_, ?_⟩
            · intro htl
              exact List.mem_cons_of_mem _ (hs3 htl)
            · intro hslt
              left
              unfold last_below
              rw [List.filter_cons_of_pos (by simpa using hlt)]
              rcases hs4 hslt with hL | ⟨hF, hB⟩
              · unfold last_below at hL
                cases hfc : (bsearchAux tlow thigh (fun v => some (g v)) n (mid + 1) high
                    (some (mid, g mid)) []).2.filter (fun m => g m < tlow) with
                | nil =>
                  rw [hfc] at hL
                  simp at hL
                | cons b u =>
                  rw [hfc] at hL
                  rw [List.getLast?_cons_cons]
                  exact hL
              · simp only [Option.some.injEq, Prod.mk.injEq] at hB
                obtain ⟨rfl, rfl⟩ := hB
                rw [hF]
                rfl
          · intro hnf
            exact absurd (r6 hnf).1 (by simp)
          · intro m hm htl hth
            rcases List.mem_cons.mp hm with rfl | hm2
            · exact absurd htl (by omega)
            · obtain ⟨h71, h72⟩ := r7 m hm2 htl hth
              refine ⟨h71, ?_⟩
              cases hc : (bsearchAux tlow thigh (fun v => some (g v)) n (mid + 1) high
                  (some (mid, g mid)) []).2 with
              | nil =>
                rw [hc] at hm2
                cases hm2
              | cons b u =>
                rw [hc] at h72
                rw [List.getLast?_cons_cons]
                exact h72
        · have hgt : thigh < g mid := by omega
          simp only [if_neg hlt]
          rw [bsearchAux_trace_append _ _ _ n low (mid - 1) best [mid]]
          simp only [List.singleton_append]
          have hrec := ih low (mid - 1) best (by omega) (by omega) hbest
          obtain ⟨r1, r2, r3, r4, r5, r6, r7⟩ := hrec
          refine ⟨r1, r2, ?_, ?_, ?_, ?_, ?_⟩
          · intro m hm
            rcases List.mem_cons.mp hm with rfl | hm
            · omega
            · have := r3 m hm
              omega
          · rw [List.pairwise_cons]
            refine ⟨?_, r4⟩
            intro b hb
            have := r3 b hb
            refine ⟨by omega, fun hc => absurd hc (by omega), fun _ => by omega⟩
          · intro v s hv
            obtain ⟨hs1, hs2, hs3, hs4⟩ := r5 v s hv
            refine ⟨hs1, hs2, ?_, ?_⟩
            · intro htl
              exact List.mem_cons_of_mem _ (hs3 htl)
            · intro hslt
              unfold last_below
              rw [List.filter_cons_of_neg (by simp; omega)]
              rcases hs4 hslt with hL | ⟨hF, hB⟩
              · left
                unfold last_below at hL
                exact hL
              · right
                exact ⟨hF, hB⟩
          · intro hnf
            obtain ⟨hb0, hall⟩ := r6 hnf
            refine ⟨hb0, ?_⟩
            intro m hm
            rcases List.mem_cons.mp hm with rfl | hm
            · exact hgt
            · exact hall m hm
          · intro m hm htl hth
            rcases List.mem_cons.mp hm with rfl | hm2
            · exact absurd hth (by omega)
            · obtain ⟨h71, h72⟩ := r7 m hm2 htl hth
              refine ⟨h71, ?_⟩
              cases hc : (bsearchAux tlow thigh (fun v => some (g v)) n low (mid - 1)
                  best []).2 with
              | nil =>
                rw [hc] at hm2
                cases hm2
              | cons b u =>
                rw [hc] at h72
                rw [List.getLast?_cons_cons]
                exact h72
    · simp only [bsearchAux, if_neg h]
      exact bfinish_spec g tlow thigh low high h3 best hbest

/-- C2 counterexample: on the range `[0, 0]` (which satisfies the claim's
`low ≤ high`) with window `[2, 3]` and an evaluator constantly `10`
(above the window), the search re-evaluates midpoint `1` at every
iteration — the trace over 5 iterations is `[1, 1, 1, 1, 1]`, violating
"never revisits an evaluated midpoint" — and the loop is still running
when the fuel runs out (it never terminates, so it also never "returns the
best candidate ... else no result"). -/
theorem C2_binary_search_counterexample :
    (binary_search ((2 : Int), 3) ((0 : Int), 0) (fun _ => some (10 : Int)) 5).2
        = [1, 1, 1, 1, 1] ∧
    ¬ (binary_search ((2 : Int), 3) ((0 : Int), 0) (fun _ => some (10 : Int)) 5).2.Nodup ∧
    (binary_search ((2 : Int), 3) ((0 : Int), 0) (fun _ => some (10 : Int)) 5).1
        = SearchOut.spin := by
  decide

/-- C2 (amended to ranges with `1 ≤ low`): with fuel `high + 1 - low` the
search terminates without error; every evaluated midpoint is in
`[low, high]` and none is evaluated twice; after a below-window candidate
only larger values are evaluated, after an above-window candidate only
smaller ones; any evaluated in-window candidate short-circuits immediately
(it is the last midpoint evaluated and it is the one returned); a returned
`(value, size)` is a genuine evaluation with `size = g value ≤ window-high`
and, when `size` is below the window, `value` is exactly the remembered
best — the last below-window midpoint evaluated; `nofind` is returned only
when every evaluated candidate was above window-high (no best was ever
remembered); and a first midpoint `(low + high).fdiv 2` (floor division)
inside the window is returned immediately. -/
theorem C2_binary_search_amended (g : Int → Int) (tlow thigh low high : Int)
    (h1 : 1 ≤ low) (h2 : low ≤ high) (h3 : tlow ≤ thigh) :
    BS_P g tlow thigh low high
      (binary_search (tlow, thigh) (low, high) (fun v => some (g v))
        (high + 1 - low).toNat) ∧
    (binary_search (tlow, thigh) (low, high) (fun v => some (g v))
        (high + 1 - low).toNat).2.Nodup ∧
    (tlow ≤ g ((low + high).fdiv 2) ∧ g ((low + high).fdiv 2) ≤ thigh →
      (binary_search (tlow, thigh) (low, high) (fun v => some (g v))
          (high + 1 - low).toNat).1 =
        SearchOut.found ((low + high).fdiv 2) (g ((low + high).fdiv 2))) := by
  have hbs :
      binary_search (tlow, thigh) (low, high) (fun v => some (g v)) (high + 1 - low).toNat =
        bsearchAux tlow thigh (fun v => some (g v)) (high + 1 - low).toNat low high none [] := by
    simp [binary_search, not_lt.mpr h2]
  have hmain := bsearchAux_spec g tlow thigh h3 (high + 1 - low).toNat low high none h1
    (le_refl _) (by intro bv bs hb; cases hb)
  obtain ⟨m1, m2, m3, m4, m5, m6, m7⟩ := hmain
  rw [hbs]
  refine ⟨⟨m1, m2, m3, m4, ?_, fun hnf => (m6 hnf).2, m7⟩,
    m4.imp (fun hab => hab.1), ?_⟩
  · intro v s hv
    obtain ⟨hs1, hs2, hs3, hs4⟩ := m5 v s hv
    refine ⟨hs1, hs2, ?_, ?_⟩
    · by_cases htl : tlow ≤ s
      · exact hs3 htl
      · rcases hs4 (by omega) with hL | ⟨_, hB⟩
        · exact (List.mem_filter.mp (mem_of_getLast? hL)).1
        · cases hB
    · intro hslt
      rcases hs4 hslt with hL | ⟨_, hB⟩
      · exact hL
      · cases hB
  · intro hw
    obtain ⟨n, hn⟩ : ∃ n, (high + 1 - low).toNat = n + 1 :=
      ⟨(high + 1 - low).toNat - 1, by omega⟩
    have hmne : ¬ ((low + high).fdiv 2 = 0) := by
      rw [Int.fdiv_eq_ediv _ (by norm_num)]
      omega
    rw [hn]
    simp only [bsearchAux, if_pos h2, if_neg hmne, if_pos hw]

/-- C2 witness: on the range `[1, 3]` with window `[2, 3]` and the identity
evaluator, the first midpoint is `2`, its size `2` lies in the window, and
the search returns it immediately. -/
theorem C2_binary_search_amended_witness :
    (binary_search ((2 : Int), 3) ((1 : Int), 3) (fun v => some v) 3).1 =
      SearchOut.found 2 2 :=
  (C2_binary_search_amended (fun v => v) 2 3 1 3 (by norm_num) (by norm_num)
    (by norm_num)).2.2 (by decide)

/-! ## Claim C4 — `add_to_queue` contract

The idempotent half holds: re-enqueuing an identity whose item is Waiting
or Processing returns `_get_position` and leaves the state unchanged.  The
new-identity half is refuted: the code returns `len(self.queue)` after the
append — the item's 1-based index among the *waiting* items only — which
does NOT count the active slot, while `_get_position` (the value the claim
describes, and the value returned on the idempotent path) does. -/

/-- C4 counterexample: enqueue user 1 into an empty queue, dequeue it (so
the active slot is occupied and the waiting sequence is empty), then
enqueue user 2: `add_to_queue` returns `1`, but user 2's position with the
active slot counted as position 1 — `_get_position`, as the claim
specifies — is `2`. -/
theorem C4_add_to_queue_counterexample :
    (add_to_queue (get_next_item (add_to_queue (initialQM String) 1 "a" 0 0 "p" 0).2).2
        2 "b" 0 0 "q" 1).1 = 1 ∧
    _get_position
      (add_to_queue (get_next_item (add_to_queue (initialQM String) 1 "a" 0 0 "p" 0).2).2
        2 "b" 0 0 "q" 1).2 2 = 2 := by
  decide

/-- C4 (amended): re-enqueuing an identity whose item is Waiting or
Processing returns its current `_get_position` and leaves the state
unchanged; enqueuing a new identity appends one Waiting item, indexes it,
and returns the length of the waiting sequence after the append (its
1-based index among waiting items only — the active slot is NOT counted in
this return value, unlike in `_get_position`). -/
theorem C4_add_to_queue_amended (π : Type) [DecidableEq π] (qm : QueueManager π)
    (uid : Int) (un : String) (cid mid2 : Int) (p : π) (now : Nat) :
    (∀ it, dget qm.user_queues uid = some it →
      (it.status = Status.waiting ∨ it.status = Status.processing) →
      add_to_queue qm uid un cid mid2 p now = (_get_position qm uid, qm)) ∧
    (dget qm.user_queues uid = none →
      add_to_queue qm uid un cid mid2 p now =
        ((qm.queue.length + 1 : Int),
          { qm with
            queue := qm.queue ++ [⟨uid, un, cid, mid2, p, now, Status.waiting⟩]
            user_queues :=
              dinsert qm.user_queues uid ⟨uid, un, cid, mid2, p, now, Status.waiting⟩ })) := by
  constructor
  · intro it hit hst
    simp [add_to_queue, hit, hst]
  · intro hnone
    simp [add_to_queue, hnone]

/-- C4 witness: enqueuing identity 7 into the empty queue returns 1. -/
theorem C4_add_to_queue_amended_witness :
    (add_to_queue (initialQM String) 7 "u" 0 0 "s" 0).1 = 1 := by
  have h := (C4_add_to_queue_amended String (initialQM String) 7 "u" 0 0 "s" 0).2 (by decide)
  rw [h]
  decide

/-! ## Claim C5 — `dequeue_next` contract: confirmed -/

/-- C5: `get_next_item` returns `none` and leaves the state unchanged when
the active slot is occupied or the waiting sequence is empty; otherwise it
pops exactly the head of the waiting sequence, marks it Processing, and
installs it as the active slot (mirroring the status mutation in the
identity index, which holds the same object); consequently two successive
calls with no intervening operation return `none` on the second call. -/
theorem C5_get_next_item (π : Type) (qm : QueueManager π) :
    (qm.processing.isSome = true → get_next_item qm = (none, qm)) ∧
    (qm.queue = [] → get_next_item qm = (none, qm)) ∧
    (∀ item rest, qm.processing = none → qm.queue = item :: rest →
      get_next_item qm =
        (some { item with status := Status.processing },
          { queue := rest
            processing := some { item with status := Status.processing }
            user_queues := dinsert qm.user_queues item.user_id
              { item with status := Status.processing } })) ∧
    (get_next_item (get_next_item qm).2).1 = none := by
  refine ⟨?_, ?_, ?_, ?_⟩
  · intro h
    simp [get_next_item, h]
  · intro h
    cases hp : qm.processing with
    | some it => simp [get_next_item, hp]
    | none => simp [get_next_item, hp, h]
  · intro item rest hp hq
    simp [get_next_item, hp, hq]
  · cases hp : qm.processing with
    | some it => simp [get_next_item, hp]
    | none =>
      cases hq : qm.queue with
      | nil => simp [get_next_item, hp, hq]
      | cons item rest => simp [get_next_item, hp, hq]

/-- C5 witness: a concrete run — enqueue identity 3 into the empty queue,
then call `get_next_item` twice; the second call yields `none`. -/
theorem C5_get_next_item_witness :
    (get_next_item
      (get_next_item (add_to_queue (initialQM String) 3 "u" 0 0 "s" 0).2).2).1 = none :=
  (C5_get_next_item String (get_next_item (add_to_queue (initialQM String) 3 "u" 0 0 "s" 0).2).2).2.2.2

/-! ## Claim C8 — delivery errors and `complete`: the pipeline is dead code

`process_queue` reads `item.pack_name` — in the start-notification
f-string (its first statement inside the per-item `try`), as the argument
of `get_sticker_set`, and in two failure f-strings — but `QueueItem`
defines no such field (its field is `pack_input`).  Every dequeued job
therefore raises `AttributeError` at that first f-string; the generic
`except` handler catches it and calls
`complete_processing(user_id, False)`.  No job ever resolves a pack,
produces an OutputBundle, or reaches the `send_document` delivery loop:
the success and delivery behaviour the claim describes belongs to a
pipeline that is unreachable on the source as written, so the claim's
antecedent ("at least one OutputBundle was produced") never occurs.  The
claim states the clear intent (the spec's §4.2/§7 orchestrator contract);
the attribute mismatch against the code's own dataclass is a slip. -/

/-- C8: the per-item body, evaluated faithfully — for every dequeued job
and every outcome of the external calls, the `AttributeError` raised by
the first `item.pack_name` read aborts the `try`, and `complete` is
called exactly once, always with success = false.  In particular no job
is ever completed successfully and no OutputBundle-producing or
delivery path is ever reached. -/
theorem C8_process_item_attribute_error (π ς φ : Type) (item : QueueItem π)
    (sendStart : Bool) (resolve : Option (Option ς)) (sendDetails : Bool)
    (files : List φ) (exists2 deliver : φ → Bool)
    (sendSuccess sendNotFound sendFailMsg sendInstr : Bool) :
    process_item item sendStart resolve sendDetails files exists2 deliver
      sendSuccess sendNotFound sendFailMsg sendInstr = [false] := rfl

/-! ## Claim C9 — `sanitize_filename`: refuted as stated

Two problems with "no leading or trailing whitespace or periods":
`strip(' .')` removes only the space character and the period, so other
whitespace (a tab, a newline) survives at either end; and the 50-character
truncation happens AFTER the strip, so a period or space can reappear at
the end of a long name.  Both are exhibited on one input below.  The
remaining parts of the claim hold and are proved in the amended form. -/

/-- A member of `dropWhile`'s result is a member of the list. -/
theorem mem_of_mem_dropWhile {α : Type} {p : α → Bool} {l : List α} {x : α}
    (h : x ∈ l.dropWhile p) : x ∈ l :=
  (List.dropWhile_sublist p).mem h

/-- The head of `dropWhile p` does not satisfy `p`. -/
theorem head?_dropWhile_not {α : Type} (p : α → Bool) :
    ∀ (l : List α) {c : α}, (l.dropWhile p).head? = some c → p c = false := by
  intro l
  induction l with
  | nil => intro c h; simp [List.dropWhile] at h
  | cons a t ih =>
    intro c h
    cases hp : p a with
    | true => rw [List.dropWhile_cons_of_pos hp] at h; exact ih h
    | false =>
      rw [List.dropWhile_cons_of_neg (by simp [hp])] at h
      simp only [List.head?_cons, Option.some.injEq] at h
      cases h
      exact hp

/-- `dropWhile` keeps a suffix: its last element is the list's last element
(when the result is nonempty). -/
theorem getLast?_dropWhile {α : Type} (p : α → Bool) :
    ∀ l : List α, l.dropWhile p = [] ∨ (l.dropWhile p).getLast? = l.getLast? := by
  intro l
  induction l with
  | nil => left; rfl
  | cons a t ih =>
    cases hp : p a with
    | true =>
      rw [List.dropWhile_cons_of_pos hp]
      cases hdw : t.dropWhile p with
      | nil => left; rfl
      | cons x xs =>
        right
        rcases ih with hnil | hlast
        · rw [hnil] at hdw
          cases hdw
        · rw [← hdw, hlast]
          cases t with
          | nil => rw [List.dropWhile_nil] at hdw; cases hdw
          | cons b u => simp
    | false =>
      right
      rw [List.dropWhile_cons_of_neg (by simp [hp])]

/-- Members of `pystrip cs s` are members of `s`. -/
theorem mem_of_mem_pystrip {cs s : List Char} {x : Char} (h : x ∈ pystrip cs s) : x ∈ s := by
  unfold pystrip at h
  rw [List.mem_reverse] at h
  have h2 := mem_of_mem_dropWhile h
  rw [List.mem_reverse] at h2
  exact mem_of_mem_dropWhile h2

/-- The first character of a stripped string is not a stripped character. -/
theorem pystrip_head {cs s : List Char} {c : Char}
    (h : (pystrip cs s).head? = some c) : c ∉ cs := by
  unfold pystrip at h
  rw [List.head?_reverse] at h
  rcases getLast?_dropWhile (fun a => decide (a ∈ cs)) (s.dropWhile (fun a => decide (a ∈ cs))).reverse
    with hnil | hlast
  · rw [hnil] at h
    simp at h
  · rw [hlast, List.getLast?_reverse] at h
    have := head?_dropWhile_not (fun a => decide (a ∈ cs)) s h
    simpa using this

/-- The last character of a stripped string is not a stripped character. -/
theorem pystrip_getLast {cs s : List Char} {c : Char}
    (h : (pystrip cs s).getLast? = some c) : c ∉ cs := by
  unfold pystrip at h
  rw [List.getLast?_reverse] at h
  have := head?_dropWhile_not (fun a => decide (a ∈ cs)) _ h
  simpa using this

/-- The head of `take n l` is the head of `l` when `0 < n`. -/
theorem head?_take_pos {α : Type} {n : Nat} (hn : 0 < n) (l : List α) :
    (l.take n).head? = l.head? := by
  cases n with
  | zero => omega
  | succ m =>
    cases l with
    | nil => rfl
    | cons a t => simp

/-- C9 counterexample: on the 52-character input
`"\t" + "a"*48 + ".bb"` the sanitized result starts with a tab (leading
whitespace survives, since `strip(' .')` removes only spaces and periods)
and — because truncation to 50 characters happens after the strip — ends
with a period. -/
theorem C9_sanitize_filename_counterexample :
    (sanitize_filename (List.cons '\t' (List.replicate 48 'a' ++ ['.', 'b', 'b']))).head?
        = some '\t' ∧
    (sanitize_filename (List.cons '\t' (List.replicate 48 'a' ++ ['.', 'b', 'b']))).getLast?
        = some '.' := by
  decide

/-- C9 (amended): the sanitized name contains none of the characters
`<>:"/\|?*`, is at most 50 characters long, never starts with a space or a
period, falls back to the fixed default `"sticker_pack"` when the stripped
result is empty, and — whenever the stripped result needs no truncation
(length at most 50) — does not end with a space or a period either.  (Tabs
and other non-space whitespace are not stripped, and truncation of longer
names can re-expose a trailing space or period; see the counterexample.) -/
theorem C9_sanitize_filename_amended (s : List Char) :
    (∀ c ∈ sanitize_filename s, c ∉ illegal_chars) ∧
    (sanitize_filename s).length ≤ 50 ∧
    (∀ c, (sanitize_filename s).head? = some c → c ≠ ' ' ∧ c ≠ '.') ∧
    (pystrip strip_set (s.map (fun c => if c ∈ illegal_chars then '_' else c)) = [] →
      sanitize_filename s = "sticker_pack".toList) ∧
    ((pystrip strip_set (s.map (fun c => if c ∈ illegal_chars then '_' else c))).length ≤ 50 →
      ∀ c, (sanitize_filename s).getLast? = some c → c ≠ ' ' ∧ c ≠ '.') := by
  set s1 := s.map (fun c => if c ∈ illegal_chars then '_' else c) with hs1
  set s2 := pystrip strip_set s1 with hs2
  set s3 := if s2.length > 50 then s2.take 50 else s2 with hs3
  have hsan : sanitize_filename s = if s3 = [] then "sticker_pack".toList else s3 := by
    simp only [sanitize_filename, hs1, hs2, hs3]
  have hs3sub : ∀ c ∈ s3, c ∈ s2 := by
    intro c hc
    rw [hs3] at hc
    split at hc
    · exact List.take_subset _ _ hc
    · exact hc
  refine ⟨?_, ?_, ?_, ?_, ?_⟩
  · intro c hc
    rw [hsan] at hc
    split at hc
    · revert hc
      revert c
      decide
    · have hc2 := hs3sub c hc
      have hc1 := mem_of_mem_pystrip hc2
      rw [hs1] at hc1
      rw [List.mem_map] at hc1
      obtain ⟨a, _, ha⟩ := hc1
      by_cases hil : a ∈ illegal_chars
      · rw [if_pos hil] at ha
        rw [← ha]
        decide
      · rw [if_neg hil] at ha
        rw [← ha]
        exact hil
  · rw [hsan]
    split
    · decide
    · rw [hs3]
      split
      · rw [List.length_take]
        omega
      · omega
  · intro c hc
    rw [hsan] at hc
    split at hc
    · have hh : ("sticker_pack".toList).head? = some 's' := by decide
      rw [hh] at hc
      cases hc
      exact ⟨by decide, by decide⟩
    · have hhead : s3.head? = s2.head? := by
        rw [hs3]
        split
        · exact head?_take_pos (by norm_num) s2
        · rfl
      rw [hhead] at hc
      have := pystrip_head hc
      constructor
      · intro hsp
        exact this (by rw [hsp]; decide)
      · intro hsp
        exact this (by rw [hsp]; decide)
  · intro hnil
    rw [hsan]
    simp only [hs3, hnil]
    decide
  · intro hlen c hc
    have h50 : ¬ s2.length > 50 := by omega
    rw [hsan] at hc
    rw [hs3, if_neg h50] at hc
    split at hc
    · have hh : ("sticker_pack".toList).getLast? = some 'k' := by decide
      rw [hh] at hc
      cases hc
      exact ⟨by decide, by decide⟩
    · have := pystrip_getLast hc
      constructor
      · intro hsp
        exact this (by rw [hsp]; decide)
      · intro hsp
        exact this (by rw [hsp]; decide)

/-- C9 witness: a concrete run of the amended claim — the input
`" my:pack. "` sanitizes to something of length at most 50 (namely
`"my_pack"`). -/
theorem C9_sanitize_filename_amended_witness :
    (sanitize_filename " my:pack. ".toList).length ≤ 50 ∧
    sanitize_filename " my:pack. ".toList = "my_pack".toList :=
  ⟨(C9_sanitize_filename_amended " my:pack. ".toList).2.1, by decide⟩

/-! ## Claim C7 — bundle chunking and titles: confirmed (for any cap `M ≥ 1`) -/

/-- The ceiling division `(T + M - 1) / M` computed by the source equals
`T / M`, plus one exactly when `M` does not divide `T`. -/
theorem num_packs_eq (T M : Nat) (hM : 1 ≤ M) :
    num_packs T M = if T % M = 0 then T / M else T / M + 1 := by
  have hdm := Nat.div_add_mod T M
  have hmod : T % M < M := Nat.mod_lt _ (by omega)
  unfold num_packs
  split
  · rename_i h0
    calc (T + M - 1) / M = (M * (T / M) + (M - 1)) / M := by congr 1; omega
    _ = T / M + (M - 1) / M := Nat.mul_add_div (by omega) _ _
    _ = T / M := by rw [Nat.div_eq_of_lt (show M - 1 < M by omega), Nat.add_zero]
  · rename_i h0
    calc (T + M - 1) / M = (M * (T / M + 1) + (T % M - 1)) / M := by
          congr 1
          rw [Nat.mul_succ]
          omega
    _ = (T / M + 1) + (T % M - 1) / M := Nat.mul_add_div (by omega) _ _
    _ = T / M + 1 := by rw [Nat.div_eq_of_lt (show T % M - 1 < M by omega), Nat.add_zero]

theorem C7_create_wastickers_chunking (σ : Type) (stickers : List σ) (title : String)
    (M : Nat) (hM : 1 ≤ M) :
    (create_chunks stickers M).length = num_packs stickers.length M ∧
    stickers.length ≤ M * (create_chunks stickers M).length ∧
    (stickers ≠ [] → M * ((create_chunks stickers M).length - 1) < stickers.length) ∧
    (∀ i, i + 1 < (create_chunks stickers M).length →
      ∃ c, (create_chunks stickers M)[i]? = some c ∧ c.length = M) ∧
    (stickers ≠ [] →
      ∃ c, (create_chunks stickers M).getLast? = some c ∧
        c.length =
          (if stickers.length % M = 0 then M else stickers.length % M)) ∧
    (chunk_titles title stickers.length M).length = num_packs stickers.length M ∧
    (1 < num_packs stickers.length M →
      ∀ i, i < num_packs stickers.length M →
        (chunk_titles title stickers.length M)[i]? =
          some (title ++ " " ++ toString (i + 1))) := by
  have hdm := Nat.div_add_mod stickers.length M
  have hmod : stickers.length % M < M := Nat.mod_lt _ (by omega)
  have hkey := num_packs_eq stickers.length M hM
  have hlen : (create_chunks stickers M).length = num_packs stickers.length M := by
    simp [create_chunks]
  have hchunk : ∀ i, i < num_packs stickers.length M →
      (create_chunks stickers M)[i]? =
        some ((stickers.drop (i * M)).take
          (min (i * M + M) stickers.length - i * M)) := by
    intro i hi
    unfold create_chunks
    rw [List.getElem?_map, List.getElem?_range hi]
    rfl
  have hclen : ∀ i, i < num_packs stickers.length M →
      ∀ c, (create_chunks stickers M)[i]? = some c →
        c.length = min M (stickers.length - i * M) := by
    intro i hi c hc
    rw [hchunk i hi] at hc
    cases hc
    rw [List.length_take, List.length_drop]
    generalize i * M = a
    omega
  have hne_len : stickers ≠ [] → 1 ≤ stickers.length := by
    intro h
    cases stickers with
    | nil => exact absurd rfl h
    | cons a t => simp
  have hu1 : 1 ≤ stickers.length → stickers.length % M = 0 →
      1 ≤ stickers.length / M := by
    intro hT h0
    rcases Nat.eq_zero_or_pos (stickers.length / M) with hz | h1
    · rw [hz, Nat.mul_zero] at hdm
      omega
    · exact h1
  refine ⟨hlen, ?_, ?_, ?_, ?_, by simp [chunk_titles], ?_⟩
  · rw [hlen, hkey]
    by_cases h0 : stickers.length % M = 0
    · rw [if_pos h0]
      revert hdm h0
      generalize stickers.length / M = u
      generalize M * u = A
      intro hdm h0
      omega
    · rw [if_neg h0, Nat.mul_succ]
      revert hdm h0
      generalize stickers.length / M = u
      generalize M * u = A
      intro hdm h0
      omega
  · intro hne
    have hT := hne_len hne
    rw [hlen, hkey]
    by_cases h0 : stickers.length % M = 0
    · rw [if_pos h0, Nat.mul_sub_one]
      revert hdm h0 hT
      generalize stickers.length / M = u
      generalize M * u = A
      intro hdm h0 hT
      omega
    · rw [if_neg h0, Nat.add_sub_cancel]
      revert hdm h0 hT
      generalize stickers.length / M = u
      generalize M * u = A
      intro hdm h0 hT
      omega
  · intro i hi
    rw [hlen] at hi
    refine ⟨_, hchunk i (by omega), ?_⟩
    have hc := hclen i (by omega) _ (hchunk i (by omega))
    rw [hc, Nat.mul_comm i M]
    rw [hkey] at hi
    by_cases h0 : stickers.length % M = 0
    · rw [if_pos h0] at hi
      have hmul : M * (i + 1) ≤ M * (stickers.length / M - 1) :=
        Nat.mul_le_mul_left M (by omega)
      rw [Nat.mul_succ, Nat.mul_sub_one] at hmul
      revert hdm h0 hmul
      generalize stickers.length / M = u
      generalize M * u = A
      generalize M * i = B
      intro hdm h0 hmul
      omega
    · rw [if_neg h0] at hi
      have hmul : M * (i + 1) ≤ M * (stickers.length / M) :=
        Nat.mul_le_mul_left M (by omega)
      rw [Nat.mul_succ] at hmul
      revert hdm h0 hmul
      generalize stickers.length / M = u
      generalize M * u = A
      generalize M * i = B
      intro hdm h0 hmul
      omega
  · intro hne
    have hT := hne_len hne
    have hn1 : 1 ≤ num_packs stickers.length M := by
      rw [hkey]
      by_cases h0 : stickers.length % M = 0
      · rw [if_pos h0]
        exact hu1 hT h0
      · rw [if_neg h0]
        exact Nat.le_add_left 1 _
    rw [List.getLast?_eq_getElem?, hlen]
    refine ⟨_, hchunk _ (by omega), ?_⟩
    have hc := hclen _ (by omega) _ (hchunk (num_packs stickers.length M - 1) (by omega))
    rw [hc, hkey]
    by_cases h0 : stickers.length % M = 0
    · rw [if_pos h0, if_pos h0, Nat.sub_one_mul,
        Nat.mul_comm (stickers.length / M) M]
      have hMu : M ≤ M * (stickers.length / M) :=
        Nat.le_mul_of_pos_right M (hu1 hT h0)
      revert hdm h0 hMu
      generalize stickers.length / M = u
      generalize M * u = A
      intro hdm h0 hMu
      omega
    · rw [if_neg h0, if_neg h0, Nat.add_sub_cancel,
        Nat.mul_comm (stickers.length / M) M]
      revert hdm h0
      generalize stickers.length / M = u
      generalize M * u = A
      intro hdm h0
      omega
  · intro h1n i hi
    unfold chunk_titles
    rw [List.getElem?_map, List.getElem?_range hi]
    simp only [Option.map_some']
    rw [if_pos h1n]

/-- C7 witness: 75 items with cap 30 produce 3 chunks (verified directly:
sizes 30/30/15 and titles "Pack 1"/"Pack 2"/"Pack 3"), and the chunk count
matches the theorem's ceiling characterization. -/
theorem C7_create_wastickers_chunking_witness :
    (create_chunks (List.range 75) 30).length = num_packs 75 30 ∧
    (create_chunks (List.range 75) 30).map List.length = [30, 30, 15] ∧
    chunk_titles "Pack" 75 30 = ["Pack 1", "Pack 2", "Pack 3"] := by
  refine ⟨?_, by decide, by decide⟩
  have h := (C7_create_wastickers_chunking Nat (List.range 75) "Pack" 30 (by norm_num)).1
  simpa using h

/-! ## Claim C10 — reachable-state invariant of the queue

Shape of the development: elementary lemmas about the dict model
(`dget` / `dinsert` / `derase`), a strengthened inductive invariant
`QM_Inv`, one preservation lemma per operation, and the claim's statement
derived from the invariant. -/

theorem dget_nil {β : Type} (k : Int) : dget ([] : List (Int × β)) k = none := rfl

theorem dget_cons {β : Type} (k2 : Int) (v2 : β) (t : List (Int × β)) (k : Int) :
    dget ((k2, v2) :: t) k = if k2 = k then some v2 else dget t k := rfl

theorem dinsert_nil {β : Type} (k : Int) (v : β) :
    dinsert ([] : List (Int × β)) k v = [(k, v)] := rfl

theorem dinsert_cons {β : Type} (k2 : Int) (v2 : β) (t : List (Int × β)) (k : Int) (v : β) :
    dinsert ((k2, v2) :: t) k v =
      if k2 = k then (k, v) :: t else (k2, v2) :: dinsert t k v := rfl

theorem derase_nil {β : Type} (k : Int) : derase ([] : List (Int × β)) k = [] := rfl

theorem derase_cons {β : Type} (k2 : Int) (v2 : β) (t : List (Int × β)) (k : Int) :
    derase ((k2, v2) :: t) k = if k2 = k then t else (k2, v2) :: derase t k := rfl

theorem dget_eq_none_iff {β : Type} (d : List (Int × β)) (k : Int) :
    dget d k = none ↔ ∀ p ∈ d, p.1 ≠ k := by
  induction d with
  | nil => simp [dget_nil]
  | cons hd t ih =>
    obtain ⟨k2, v2⟩ := hd
    rw [dget_cons]
    by_cases hk : k2 = k
    · subst hk
      simp
    · simp only [if_neg hk, ih, List.mem_cons]
      constructor
      · rintro hall p (rfl | hp)
        · exact hk
        · exact hall p hp
      · intro hall p hp
        exact hall p (Or.inr hp)

theorem dget_some_mem {β : Type} {d : List (Int × β)} {k : Int} {v : β}
    (h : dget d k = some v) : (k, v) ∈ d := by
  induction d with
  | nil => simp [dget_nil] at h
  | cons hd t ih =>
    obtain ⟨k2, v2⟩ := hd
    rw [dget_cons] at h
    by_cases hk : k2 = k
    · subst hk
      rw [if_pos rfl] at h
      cases h
      exact List.mem_cons_self _ _
    · rw [if_neg hk] at h
      exact List.mem_cons_of_mem _ (ih h)

theorem dget_dinsert_self {β : Type} (d : List (Int × β)) (k : Int) (v : β) :
    dget (dinsert d k v) k = some v := by
  induction d with
  | nil => simp [dinsert_nil, dget_cons]
  | cons hd t ih =>
    obtain ⟨k2, v2⟩ := hd
    rw [dinsert_cons]
    by_cases hk : k2 = k
    · rw [if_pos hk, dget_cons, if_pos rfl]
    · rw [if_neg hk, dget_cons, if_neg hk]
      exact ih

theorem dget_dinsert_ne {β : Type} (d : List (Int × β)) (k k' : Int) (v : β)
    (h : k' ≠ k) : dget (dinsert d k v) k' = dget d k' := by
  induction d with
  | nil =>
    rw [dinsert_nil, dget_cons, if_neg (fun he => h he.symm), dget_nil]
  | cons hd t ih =>
    obtain ⟨k2, v2⟩ := hd
    rw [dinsert_cons]
    by_cases hk : k2 = k
    · subst hk
      rw [if_pos rfl, dget_cons, if_neg (fun he => h he.symm), dget_cons,
        if_neg (fun he => h he.symm)]
    · rw [if_neg hk, dget_cons, dget_cons]
      by_cases hk2 : k2 = k'
      · rw [if_pos hk2, if_pos hk2]
      · rw [if_neg hk2, if_neg hk2]
        exact ih

theorem dinsert_of_none {β : Type} {d : List (Int × β)} {k : Int}
    (h : dget d k = none) (v : β) : dinsert d k v = d ++ [(k, v)] := by
  induction d with
  | nil => rfl
  | cons hd t ih =>
    obtain ⟨k2, v2⟩ := hd
    rw [dget_cons] at h
    by_cases hk : k2 = k
    · rw [if_pos hk] at h
      cases h
    · rw [if_neg hk] at h
      rw [dinsert_cons, if_neg hk, ih h, List.cons_append]

theorem keys_dinsert_present {β : Type} {d : List (Int × β)} {k : Int} {w : β}
    (h : dget d k = some w) (v : β) :
    (dinsert d k v).map Prod.fst = d.map Prod.fst := by
  induction d with
  | nil => simp [dget_nil] at h
  | cons hd t ih =>
    obtain ⟨k2, v2⟩ := hd
    rw [dget_cons] at h
    rw [dinsert_cons]
    by_cases hk : k2 = k
    · subst hk
      rw [if_pos rfl]
      simp
    · rw [if_neg hk] at h
      rw [if_neg hk, List.map_cons, List.map_cons, ih h]

theorem mem_dinsert {β : Type} {d : List (Int × β)} {k : Int} {v : β}
    {q : Int × β} (h : q ∈ dinsert d k v) : q = (k, v) ∨ q ∈ d := by
  induction d with
  | nil =>
    rw [dinsert_nil, List.mem_singleton] at h
    exact Or.inl h
  | cons hd t ih =>
    obtain ⟨k2, v2⟩ := hd
    rw [dinsert_cons] at h
    by_cases hk : k2 = k
    · rw [if_pos hk] at h
      rcases List.mem_cons.mp h with rfl | hq
      · exact Or.inl rfl
      · exact Or.inr (List.mem_cons_of_mem _ hq)
    · rw [if_neg hk] at h
      rcases List.mem_cons.mp h with rfl | hq
      · exact Or.inr (List.mem_cons_self _ _)
      · rcases ih hq with h1 | h1
        · exact Or.inl h1
        · exact Or.inr (List.mem_cons_of_mem _ h1)

theorem mem_dinsert_iff_of_nodup {β : Type} {d : List (Int × β)} {k : Int} {v : β}
    {q : Int × β} (hnd : (d.map Prod.fst).Nodup) :
    q ∈ dinsert d k v ↔ q = (k, v) ∨ (q ∈ d ∧ q.1 ≠ k) := by
  induction d with
  | nil => simp [dinsert_nil]
  | cons hd t ih =>
    obtain ⟨k2, v2⟩ := hd
    rw [List.map_cons, List.nodup_cons] at hnd
    rw [dinsert_cons]
    by_cases hk : k2 = k
    · subst hk
      rw [if_pos rfl]
      simp only [List.mem_cons]
      constructor
      · rintro (rfl | hq)
        · exact Or.inl rfl
        · refine Or.inr ⟨Or.inr hq, ?_⟩
          intro hq1
          have hmm : q.1 ∈ List.map Prod.fst t := List.mem_map_of_mem Prod.fst hq
          rw [hq1] at hmm
          exact hnd.1 hmm
      · rintro (rfl | ⟨rfl | hq, hne⟩)
        · exact Or.inl rfl
        · exact absurd rfl hne
        · exact Or.inr hq
    · rw [if_neg hk]
      simp only [List.mem_cons, ih hnd.2]
      constructor
      · rintro (rfl | (rfl | ⟨hq, hne⟩))
        · exact Or.inr ⟨Or.inl rfl, fun he => hk (by simpa using he)⟩
        · exact Or.inl rfl
        · exact Or.inr ⟨Or.inr hq, hne⟩
      · rintro (rfl | ⟨rfl | hq, hne⟩)
        · exact Or.inr (Or.inl rfl)
        · exact Or.inl rfl
        · exact Or.inr (Or.inr ⟨hq, hne⟩)

theorem mem_derase {β : Type} {d : List (Int × β)} {k : Int} {q : Int × β}
    (h : q ∈ derase d k) : q ∈ d := by
  induction d with
  | nil =>
    rw [derase_nil] at h
    cases h
  | cons hd t ih =>
    obtain ⟨k2, v2⟩ := hd
    rw [derase_cons] at h
    by_cases hk : k2 = k
    · rw [if_pos hk] at h
      exact List.mem_cons_of_mem _ h
    · rw [if_neg hk] at h
      rcases List.mem_cons.mp h with rfl | hq
      · exact List.mem_cons_self _ _
      · exact List.mem_cons_of_mem _ (ih hq)

theorem keys_derase_sublist {β : Type} (d : List (Int × β)) (k : Int) :
    ((derase d k).map Prod.fst).Sublist (d.map Prod.fst) := by
  induction d with
  | nil => simp [derase_nil]
  | cons hd t ih =>
    obtain ⟨k2, v2⟩ := hd
    rw [derase_cons]
    by_cases hk : k2 = k
    · rw [if_pos hk, List.map_cons]
      exact List.sublist_cons_self _ _
    · rw [if_neg hk, List.map_cons, List.map_cons]
      exact ih.cons₂ _

theorem dget_derase_ne {β : Type} (d : List (Int × β)) (k k' : Int) (h : k' ≠ k) :
    dget (derase d k) k' = dget d k' := by
  induction d with
  | nil => rfl
  | cons hd t ih =>
    obtain ⟨k2, v2⟩ := hd
    rw [derase_cons]
    by_cases hk : k2 = k
    · subst hk
      rw [if_pos rfl, dget_cons, if_neg (fun he => h he.symm)]
    · rw [if_neg hk, dget_cons, dget_cons]
      by_cases hk2 : k2 = k'
      · rw [if_pos hk2, if_pos hk2]
      · rw [if_neg hk2, if_neg hk2]
        exact ih

theorem mem_derase_ne {β : Type} {d : List (Int × β)} {k : Int} {q : Int × β}
    (hnd : (d.map Prod.fst).Nodup) (h : q ∈ derase d k) : q.1 ≠ k := by
  induction d with
  | nil =>
    rw [derase_nil] at h
    cases h
  | cons hd t ih =>
    obtain ⟨k2, v2⟩ := hd
    rw [List.map_cons, List.nodup_cons] at hnd
    rw [derase_cons] at h
    by_cases hk : k2 = k
    · subst hk
      rw [if_pos rfl] at h
      intro hq1
      have hmm : q.1 ∈ List.map Prod.fst t := List.mem_map_of_mem Prod.fst h
      rw [hq1] at hmm
      exact hnd.1 hmm
    · rw [if_neg hk] at h
      rcases List.mem_cons.mp h with rfl | hq
      · exact hk
      · exact ih hnd.2 hq

/-- The strengthened inductive invariant of a `QueueManager` state: the
identity index is keyed consistently and duplicate-free, waiting items are
Waiting, indexed and pairwise distinct by identity, the active item (if
any) is Processing, indexed and absent from the waiting sequence, and
every indexed item is exactly one of: an element of the waiting sequence
(Waiting) or the active item (Processing). -/
structure QM_Inv {π : Type} (qm : QueueManager π) : Prop where
  keys_match : ∀ p ∈ qm.user_queues, (p.2 : QueueItem π).user_id = p.1
  keys_nodup : (qm.user_queues.map Prod.fst).Nodup
  queue_waiting : ∀ it ∈ qm.queue, it.status = Status.waiting
  queue_nodup : (qm.queue.map QueueItem.user_id).Nodup
  proc_ok : ∀ it, qm.processing = some it →
    it.status = Status.processing ∧ dget qm.user_queues it.user_id = some it ∧
    it.user_id ∉ qm.queue.map QueueItem.user_id
  queue_indexed : ∀ it ∈ qm.queue, dget qm.user_queues it.user_id = some it
  index_covers : ∀ p ∈ qm.user_queues,
    ((p.2 : QueueItem π) ∈ qm.queue ∧ (p.2 : QueueItem π).status = Status.waiting) ∨
    (qm.processing = some p.2 ∧ (p.2 : QueueItem π).status = Status.processing)

theorem QM_Inv_init (π : Type) : QM_Inv (initialQM π) := by
  constructor <;> simp [initialQM]

theorem QM_Inv_enqueue {π : Type} [DecidableEq π] {qm : QueueManager π}
    (h : QM_Inv qm) (uid : Int) (un : String) (cid mid2 : Int) (p : π) (now : Nat) :
    QM_Inv (add_to_queue qm uid un cid mid2 p now).2 := by
  unfold add_to_queue
  cases hg : dget qm.user_queues uid with
  | some it =>
    have hmem := dget_some_mem hg
    have hst : it.status = Status.waiting ∨ it.status = Status.processing := by
      rcases h.index_covers _ hmem with ⟨_, hw⟩ | ⟨_, hp2⟩
      · exact Or.inl hw
      · exact Or.inr hp2
    simp only [hg, if_pos hst]
    exact h
  | none =>
    simp only [hg]
    set F : QueueItem π := ⟨uid, un, cid, mid2, p, now, Status.waiting⟩ with hF
    have hqk : uid ∉ qm.queue.map QueueItem.user_id := by
      intro hmem2
      obtain ⟨it2, hit2, hid⟩ := List.mem_map.mp hmem2
      have hidx := h.queue_indexed it2 hit2
      rw [hid, hg] at hidx
      cases hidx
    have hkeys : uid ∉ qm.user_queues.map Prod.fst := by
      intro hmem2
      obtain ⟨q, hq2, hq1⟩ := List.mem_map.mp hmem2
      exact (dget_eq_none_iff _ _).mp hg q hq2 hq1
    constructor
    · intro q hq
      rcases mem_dinsert hq with rfl | hq2
      · rfl
      · exact h.keys_match q hq2
    · rw [dinsert_of_none hg, List.map_append, List.nodup_append]
      refine ⟨h.keys_nodup, List.nodup_singleton uid, ?_⟩
      intro a ha hb
      rw [List.map_cons, List.map_nil, List.mem_singleton] at hb
      subst hb
      exact hkeys ha
    · intro it2 hit2
      rcases List.mem_append.mp hit2 with hold | hnew
      · exact h.queue_waiting it2 hold
      · rw [List.mem_singleton] at hnew
        subst hnew
        rfl
    · rw [List.map_append, List.nodup_append]
      refine ⟨h.queue_nodup, by simp, ?_⟩
      intro a ha hb
      rw [List.map_cons, List.map_nil, List.mem_singleton] at hb
      subst hb
      exact hqk ha
    · intro it2 hp2
      obtain ⟨hs2, hd2, hn2⟩ := h.proc_ok it2 hp2
      have hne : it2.user_id ≠ uid := by
        intro he
        rw [he, hg] at hd2
        cases hd2
      refine ⟨hs2, ?_, ?_⟩
      · rw [dget_dinsert_ne _ _ _ _ hne]
        exact hd2
      · rw [List.map_append]
        intro hmm
        rcases List.mem_append.mp hmm with hold | hnew
        · exact hn2 hold
        · rw [List.map_cons, List.map_nil, List.mem_singleton] at hnew
          exact hne hnew
    · intro it2 hit2
      rcases List.mem_append.mp hit2 with hold | hnew
      · have hne : it2.user_id ≠ uid := by
          intro he
          have hidx := h.queue_indexed it2 hold
          rw [he, hg] at hidx
          cases hidx
        rw [dget_dinsert_ne _ _ _ _ hne]
        exact h.queue_indexed it2 hold
      · rw [List.mem_singleton] at hnew
        subst hnew
        exact dget_dinsert_self _ _ _
    · intro q hq
      rcases mem_dinsert hq with rfl | hq2
      · left
        refine ⟨List.mem_append_right _ (List.mem_singleton.mpr rfl), rfl⟩
      · rcases h.index_covers q hq2 with ⟨hmm, hw⟩ | ⟨hpr, hs2⟩
        · exact Or.inl ⟨List.mem_append_left _ hmm, hw⟩
        · exact Or.inr ⟨hpr, hs2⟩

theorem QM_Inv_dequeue {π : Type} {qm : QueueManager π} (h : QM_Inv qm) :
    QM_Inv (get_next_item qm).2 := by
  unfold get_next_item
  cases hp : qm.processing with
  | some it =>
    simp only [Option.isSome_some, if_true]
    exact h
  | none =>
    simp only [Option.isSome_none, Bool.false_eq_true, if_false]
    cases hq : qm.queue with
    | nil => exact h
    | cons item rest =>
      have hmem : item ∈ qm.queue := by rw [hq]; exact List.mem_cons_self _ _
      have hqi := h.queue_indexed item hmem
      have hnodup := h.queue_nodup
      rw [hq, List.map_cons, List.nodup_cons] at hnodup
      constructor
      · intro q hqm
        rcases mem_dinsert hqm with rfl | hq2
        · rfl
        · exact h.keys_match q hq2
      · rw [keys_dinsert_present hqi]
        exact h.keys_nodup
      · intro it2 hit2
        have : it2 ∈ qm.queue := by
          rw [hq]
          exact List.mem_cons_of_mem _ hit2
        exact h.queue_waiting it2 this
      · exact hnodup.2
      · intro it2 hp2
        cases hp2
        refine ⟨rfl, dget_dinsert_self _ _ _, hnodup.1⟩
      · intro it2 hit2
        have hmem2 : it2 ∈ qm.queue := by
          rw [hq]
          exact List.mem_cons_of_mem _ hit2
        have hne : it2.user_id ≠ item.user_id := by
          intro he
          apply hnodup.1
          rw [← he]
          exact List.mem_map_of_mem QueueItem.user_id hit2
        rw [dget_dinsert_ne _ _ _ _ hne]
        exact h.queue_indexed it2 hmem2
      · intro q hqm
        rcases (mem_dinsert_iff_of_nodup h.keys_nodup).mp hqm with rfl | ⟨hq2, hne⟩
        · exact Or.inr ⟨rfl, rfl⟩
        · rcases h.index_covers q hq2 with ⟨hmm, hw⟩ | ⟨hpr, _⟩
          · rw [hq, List.mem_cons] at hmm
            rcases hmm with heq | hrest
            · exfalso
              apply hne
              rw [← h.keys_match q hq2, heq]
            · exact Or.inl ⟨hrest, hw⟩
          · rw [hp] at hpr
            cases hpr

theorem QM_Inv_complete {π : Type} {qm : QueueManager π} (h : QM_Inv qm)
    (uid : Int) (success : Bool) :
    QM_Inv (complete_processing qm uid success) := by
  unfold complete_processing
  cases hp : qm.processing with
  | none => exact h
  | some item =>
    dsimp only
    by_cases hid : item.user_id = uid
    · rw [if_pos hid]
      obtain ⟨hps, hpd, hpn⟩ := h.proc_ok item hp
      constructor
      · intro q hq
        exact h.keys_match q (mem_derase hq)
      · exact List.Nodup.sublist (keys_derase_sublist _ _) h.keys_nodup
      · exact h.queue_waiting
      · exact h.queue_nodup
      · intro it2 hp2
        cases hp2
      · intro it2 hit2
        have hne : it2.user_id ≠ uid := by
          intro he
          apply hpn
          rw [hid, ← he]
          exact List.mem_map_of_mem QueueItem.user_id hit2
        rw [dget_derase_ne _ _ _ hne]
        exact h.queue_indexed it2 hit2
      · intro q hq
        have hq2 := mem_derase hq
        have hne := mem_derase_ne h.keys_nodup hq
        rcases h.index_covers q hq2 with ⟨hmm, hw⟩ | ⟨hpr, _⟩
        · exact Or.inl ⟨hmm, hw⟩
        · exfalso
          rw [hp] at hpr
          cases hpr
          apply hne
          rw [← h.keys_match q hq2, ← hid]
    · rw [if_neg hid]
      exact h

theorem QM_Inv_reachable {π : Type} [DecidableEq π] {qm : QueueManager π}
    (h : Reachable qm) : QM_Inv qm := by
  induction h with
  | init => exact QM_Inv_init π
  | enqueue uid un cid mid2 p now _ ih => exact QM_Inv_enqueue ih uid un cid mid2 p now
  | dequeue _ ih => exact QM_Inv_dequeue ih
  | complete uid success _ ih => exact QM_Inv_complete ih uid success

/-- C10: in every state reachable from the empty queue by any sequence of
enqueue, dequeue and complete operations, every identity-index entry is
either an element of the waiting sequence (and then not the active item)
or the active item (and then not in the waiting sequence) — never both,
never neither; consequently `get_queue_position` returns `none` or a
positive integer, and `_get_position`'s 0-valued fallback branches are
never taken for an indexed identity. -/
theorem C10_queue_invariant (π : Type) [DecidableEq π] (qm : QueueManager π)
    (h : Reachable qm) :
    (∀ q ∈ qm.user_queues,
      ((q.2 : QueueItem π) ∈ qm.queue ∧ qm.processing ≠ some q.2) ∨
      (qm.processing = some q.2 ∧ (q.2 : QueueItem π) ∉ qm.queue)) ∧
    (∀ uid, get_queue_position qm uid = none ∨
      ∃ k : Int, get_queue_position qm uid = some k ∧ 0 < k) ∧
    (∀ uid it, dget qm.user_queues uid = some it → 0 < _get_position qm uid) := by
  have hinv := QM_Inv_reachable h
  have hpos : ∀ uid it, dget qm.user_queues uid = some it → 0 < _get_position qm uid := by
    intro uid it hg
    unfold _get_position
    rw [hg]
    dsimp only
    by_cases hst : it.status = Status.processing
    · rw [if_pos hst]
      norm_num
    · rw [if_neg hst]
      have hmem := dget_some_mem hg
      rcases hinv.index_covers _ hmem with ⟨hq, _⟩ | ⟨_, hps⟩
      · cases hfi : qm.queue.findIdx? (fun x => x = it) with
        | none =>
          exfalso
          rw [List.findIdx?_eq_none_iff] at hfi
          have := hfi it hq
          simp at this
        | some idx =>
          cases hip : qm.processing.isSome <;> simp <;> omega
      · exact absurd hps hst
  refine ⟨?_, ?_, hpos⟩
  · intro q hq
    rcases hinv.index_covers q hq with ⟨hmm, hw⟩ | ⟨hpr, hs⟩
    · left
      refine ⟨hmm, ?_⟩
      intro hps
      have := (hinv.proc_ok _ hps).1
      rw [this] at hw
      cases hw
    · right
      refine ⟨hpr, ?_⟩
      intro hmm
      have := hinv.queue_waiting _ hmm
      rw [this] at hs
      cases hs
  · intro uid
    unfold get_queue_position
    cases hg : dget qm.user_queues uid with
    | none => simp
    | some it =>
      right
      refine ⟨_get_position qm uid, by simp, hpos uid it hg⟩

/-- C10 witness: the concrete reachable state obtained by enqueueing
identity 1 and dequeuing it — identity 1 is indexed (as the Processing
active item) and its position is positive (it is 1). -/
theorem C10_queue_invariant_witness :
    0 < _get_position
      (get_next_item (add_to_queue (initialQM String) 1 "a" 0 0 "p" 0).2).2 1 :=
  (C10_queue_invariant String _
    (Reachable.dequeue (Reachable.enqueue 1 "a" 0 0 "p" 0 Reachable.init))).2.2 1
    ⟨1, "a", 0, 0, "p", 0, Status.processing⟩ (by decide)
